import Mathlib

/-!
Verification of the command-line harness of the Ethereal chess engine
(`src/cmdline.c`): the benchmark runner, the book evaluator, the
training-position filter and the binary training-book encoder.

Machine integers are modelled as `Nat`/`Int` with explicit `% 2 ^ w`
where a narrowing conversion happens in the C code.  Bit primitives
(`popcount`, `getlsb`, the `poplsb` extraction loop) live in the
repository's `bitboards.h`, which is not part of the harness source;
they are modelled from the spec, which describes them as population
count, least-significant-bit index, and repeated least-significant-bit
removal.  All recursive functions use structural fuel so that every
definition evaluates inside the kernel.
-/

/-! ## Bit primitives -/

/-- Modelled from the spec: `popcount` from `bitboards.h`, the population
count (number of set bits) of a word, written with structural fuel.  The
fuel `n` is enough because the value at least halves each step. -/
def popcountAux : Nat → Nat → Nat
  | 0, _ => 0
  | fuel + 1, n => if n = 0 then 0 else n % 2 + popcountAux fuel (n / 2)

/-- Modelled from the spec: population count of `n`. -/
def popcount (n : Nat) : Nat := popcountAux n n

/-- Modelled from the spec: index of the least significant set bit,
written with structural fuel (`ctzAux fuel n`). -/
def ctzAux : Nat → Nat → Nat
  | 0, _ => 0
  | fuel + 1, n => if n = 0 then 0 else if n % 2 = 1 then 0 else ctzAux fuel (n / 2) + 1

/-- Modelled from the spec: `getlsb` from `bitboards.h`, the index of the
least significant set bit (0 on the empty board, where the C code is
undefined). -/
def ctz (n : Nat) : Nat := ctzAux n n

/-- Modelled from the spec: `getlsb` from `bitboards.h`. -/
def getlsb (bb : Nat) : Nat := ctz bb

/-- Squares of a bitboard in the order produced by the C idiom
`while (bb) sq = poplsb(&bb);` — repeated least-significant-bit removal
(`bb &&& (bb - 1)` clears the least significant set bit). -/
def lsbSquaresAux : Nat → Nat → List Nat
  | 0, _ => []
  | fuel + 1, bb => if bb = 0 then [] else ctz bb :: lsbSquaresAux fuel (bb &&& (bb - 1))

/-- Squares of a bitboard, least significant bit first. -/
def lsbSquares (bb : Nat) : List Nat := lsbSquaresAux bb bb

/-! ## C string primitives used by the harness -/

/-- Index of the first occurrence of `pat` inside a character list, as
C `strstr` computes it (`none` when `strstr` returns `NULL`). -/
def findSub (pat : List Char) : List Char → Option Nat
  | [] => if List.isPrefixOf pat ([] : List Char) then some 0 else none
  | c :: cs => if List.isPrefixOf pat (c :: cs) then some 0 else (findSub pat cs).map (· + 1)

/-- Whether `pat` occurs inside `s` (C `strstr` returning non-`NULL`). -/
def containsSub (pat s : List Char) : Bool := (findSub pat s).isSome

/-- The space characters skipped by C `atoi` (the `isspace` set). -/
def isSpaceChar (c : Char) : Bool :=
  c = ' ' || c = '\t' || c = '\n' || c = '\r' || c = '\x0b' || c = '\x0c'

/-- Value of the leading decimal digit run of a character list. -/
def digitsVal (cs : List Char) : Nat :=
  (cs.takeWhile Char.isDigit).foldl (fun a c => 10 * a + (c.toNat - '0'.toNat)) 0

/-- C `atoi`: skip leading spaces, read an optional sign, then a digit
run; 0 when no digits follow. -/
def atoi (cs : List Char) : Int :=
  match cs.dropWhile isSpaceChar with
  | [] => 0
  | c :: rest =>
    if c = '-' then -(digitsVal rest : Int)
    else if c = '+' then (digitsVal rest : Int)
    else (digitsVal (c :: rest) : Int)

/-- Conversion of an `int` to `int16_t` (two's-complement wrap, as the
target implementation performs it). -/
def toInt16 (n : Int) : Int := (n + 32768) % 65536 - 32768

/-! ## Board model

`boardFromFEN`, the piece encoding and the attack computation live
outside the harness source; the board is therefore an abstract record
holding exactly the fields `cmdline.c` reads. -/

/-- Modelled from the spec: an occupying piece, a colour (0 = white,
1 = black) together with a piece-type index in `0..5`. -/
structure Piece where
  colour : Nat
  ptype : Nat
  deriving DecidableEq

/-- The fields of `Board` that `cmdline.c` reads: the two colour
bitboards, the king bitboard (`pieces[KING]`), the square → piece map
(`squares`), the side to move, and the `kingAttackers` bitboard that is
non-zero exactly when the side to move is in check. -/
structure Board where
  white : Nat
  black : Nat
  kings : Nat
  squares : Nat → Piece
  turn : Nat
  kingAttackers : Nat

/-- The macro `encode_piece(p) = 8 * pieceColour(p) + pieceType(p)`. -/
def encodePiece (p : Piece) : Nat := 8 * p.colour + p.ptype

/-- The macro `pack_pieces(p1, p2) = (p1 << 4) | p2`, stored into a
`uint8_t` (hence the `% 256`). -/
def packPieces (p1 p2 : Nat) : Nat := ((p1 <<< 4) ||| p2) % 256

/-- The 4-bit type codes of the occupied squares in the order the
`poplsb` loop of `buildNNBook` visits them. -/
def pieceCodes (b : Board) : List Nat :=
  (lsbSquares (b.white ||| b.black)).map (fun sq => encodePiece (b.squares sq))

/-! ## buildNNBook -/

/-- One binary record of `output.nnbook`, fields listed in the order
`buildNNBook` writes them: the 8-byte occupancy, the 2-byte signed
evaluation, then the one-byte result, turn, king squares and piece
count, and finally the packed-type body bytes. -/
structure TrainingRecord where
  occupancy : Nat
  eval : Int
  result : Nat
  turn : Nat
  wksq : Nat
  bksq : Nat
  count : Nat
  body : List Nat
  deriving DecidableEq

/-- The literal result markers scanned by `buildNNBook`. -/
def mark00 : List Char := "[0.0]".data

/-- The draw marker literal. -/
def mark05 : List Char := "[0.5]".data

/-- The win marker literal. -/
def mark10 : List Char := "[1.0]".data

/-- One iteration of the `buildNNBook` loop: the record written for one
input line, given the board parsed from the line.  `result0` stands for
the indeterminate initial value of the uninitialized `uint8_t result`
local.  Returns `none` when `strstr(line, "] ")` is `NULL` (the C code
then reads through a null pointer). -/
def buildRecord (b : Board) (line : String) (result0 : Nat) : Option TrainingRecord :=
  match findSub (']' :: ' ' :: []) line.data with
  | none => none
  | some idx =>
    let eval : Int := toInt16 (atoi (line.data.drop (idx + 2)))
    let turn : Nat := b.turn
    let white := b.white
    let black := b.black
    let pieces := white ||| black
    let count := popcount pieces % 256
    let wksq := getlsb (white &&& b.kings)
    let bksq := getlsb (black &&& b.kings)
    let r1 : Nat := if containsSub mark00 line.data then 0 else result0
    let r2 : Nat := if containsSub mark05 line.data then 1 else r1
    let result : Nat := if containsSub mark10 line.data then 2 else r2
    let types : Nat → Nat := fun i => (pieceCodes b).getD i 0
    let packed := (List.range 16).map (fun i => packPieces (types (2 * i)) (types (2 * i + 1)))
    let body := packed.take ((count + 1) / 2)
    some { occupancy := pieces, eval := eval, result := result, turn := turn,
           wksq := wksq, bksq := bksq, count := count, body := body }

/-! ## filterBook -/

/-- The body of the `filterBook` loop: whether one line survives, given
the abstract static evaluation and quiescence search (both live outside
the harness source).  The three rejections mirror the C `continue`s in
order: in check, at most six pieces, evaluation differs from
quiescence. -/
def keepLine (evalFn qsFn : Board → Int) (b : Board) : Bool :=
  if b.kingAttackers ≠ 0 then false
  else if popcount (b.white ||| b.black) ≤ 6 then false
  else if evalFn b ≠ qsFn b then false
  else true

/-- `filterBook`: stream the input lines in order and print, verbatim,
exactly those whose parsed board survives `keepLine`.  `parse` stands
for `boardFromFEN`. -/
def filterBook (parse : String → Board) (evalFn qsFn : Board → Int)
    (lines : List String) : List String :=
  lines.filter (fun l => keepLine evalFn qsFn (parse l))

/-! ## Resource traces of runBenchmark and runEvalBook -/

/-- Engine-resource events performed by the two search pipelines. -/
inductive Event where
  | initTT (megabytes : Nat)
  | createPool (nthreads : Nat)
  | search (fen : String)
  | clearTT
  | resetPool
  | freePool
  deriving DecidableEq

/-- Whether an event is a transposition-table initialization. -/
def isInit : Event → Bool
  | Event.initTT _ => true
  | _ => false

/-- Whether an event is a search. -/
def isSearch : Event → Bool
  | Event.search _ => true
  | _ => false

/-- Whether an event is a transposition-table clear. -/
def isClear : Event → Bool
  | Event.clearTT => true
  | _ => false

/-- Whether an event is a thread-pool reset. -/
def isReset : Event → Bool
  | Event.resetPool => true
  | _ => false

/-- The `runBenchmark` search loop: for each suite entry up to the empty
sentinel, a blocking search followed by `clearTT()`. -/
def benchSearchLoop : List String → List Event
  | [] => []
  | fen :: rest =>
    if fen = "" then [] else Event.search fen :: Event.clearTT :: benchSearchLoop rest

/-- Resource trace of `runBenchmark`: `initTT(megabytes)`, thread-pool
creation, the search loop, then `free(threads)`. -/
def runBenchmarkTrace (suite : List String) (megabytes nthreads : Nat) : List Event :=
  Event.initTT megabytes :: Event.createPool nthreads :: (benchSearchLoop suite ++ [Event.freePool])

/-- The `runEvalBook` line loop: search, then `resetThreadPool`, then
`clearTT`, for every line of the book. -/
def evalBookLoop : List String → List Event
  | [] => []
  | line :: rest => Event.search line :: Event.resetPool :: Event.clearTT :: evalBookLoop rest

/-- Resource trace of `runEvalBook`: thread-pool creation, then
`initTT(megabytes)`, then the line loop (the pool is not freed there). -/
def runEvalBookTrace (lines : List String) (megabytes nthreads : Nat) : List Event :=
  Event.createPool nthreads :: Event.initTT megabytes :: evalBookLoop lines

/-- Does `p` hold of some event after this point but before the next
search or transposition-table initialization? -/
def beforeNextSearch (p : Event → Bool) : List Event → Bool
  | [] => false
  | e :: rest =>
    if p e then true else if isSearch e || isInit e then false else beforeNextSearch p rest

/-- After every search in the trace, `p` holds of some event before the
next search or initialization (and before the end of the trace). -/
def afterEachSearch (p : Event → Bool) : List Event → Bool
  | [] => true
  | e :: rest => (!isSearch e || beforeNextSearch p rest) && afterEachSearch p rest

/-- No search occurs before the first event satisfying `p`. -/
def noSearchBefore (p : Event → Bool) : List Event → Bool
  | [] => true
  | e :: rest => if p e then true else !isSearch e && noSearchBefore p rest

/-! ## runBenchmark statistics -/

/-- The benchmark positions actually searched: the compiled-in suite up
to (excluding) the empty-string sentinel. -/
def benchPositions (suite : List String) : List String :=
  suite.takeWhile (fun s => s != "")

/-- The total node count accumulated by the loop
`for (i...) totalNodes += nodes[i];`, with `nodesOf` the per-position
node count produced by the searches. -/
def benchTotalNodes (nodesOf : String → Nat) (suite : List String) : Nat :=
  ((benchPositions suite).map nodesOf).foldl (· + ·) 0

/-- The aggregate nodes-per-second figure
`(int)(1000.0f * totalNodes / (time + 1))`, with the float arithmetic
modelled exactly over the rationals; the truncation toward zero of the
`(int)` cast is `Int.floor` because the operands are non-negative. -/
def benchOverallNps (totalNodes : Nat) (elapsed : ℚ) : ℤ :=
  Int.floor ((1000 * (totalNodes : ℚ)) / (elapsed + 1))

/-- The indices at which the benchmark loops read and write the five
256-entry statistics arrays (`scores`, `times`, `nodes`, `bestMoves`,
`ponderMoves`): one index per position before the sentinel, in all
three loops. -/
def benchStatAccesses (suite : List String) : List Nat :=
  List.range (benchPositions suite).length

/-- The indices at which the benchmark loops read the `Benchmarks`
array itself: every position index plus the final sentinel test. -/
def benchSuiteAccesses (suite : List String) : List Nat :=
  List.range ((benchPositions suite).length + 1)

/-! ## handleCommandLine -/

/-- The four pipelines `handleCommandLine` can dispatch to. -/
inductive Pipeline where
  | bench
  | filterP
  | nnbook
  | evalbook
  deriving DecidableEq

/-- `handleCommandLine` (in a build without the tuner): which pipeline
is invoked, the diagnostics the dispatcher itself prints (always none),
and the exit status (`some 0` = `exit(EXIT_SUCCESS)` after a pipeline,
`none` = fall through and return normally). -/
def handleCommandLine (argv : List String) : Option Pipeline × List String × Option Nat :=
  if 1 < argv.length ∧ argv.getD 1 "" = "bench" then (some Pipeline.bench, [], some 0)
  else if 1 < argv.length ∧ argv.getD 1 "" = "filter" then (some Pipeline.filterP, [], some 0)
  else if 1 < argv.length ∧ argv.getD 1 "" = "nnbook" then (some Pipeline.nnbook, [], some 0)
  else if 2 < argv.length ∧ argv.getD 1 "" = "evalbook" then (some Pipeline.evalbook, [], some 0)
  else (none, [], none)

/-! ## Spec-side definitions used to state the claims -/

/-- The characters following the first occurrence of `pat` in `s`. -/
def afterSub (pat s : List Char) : Option (List Char) :=
  (findSub pat s).map (fun i => s.drop (i + pat.length))

/-- Modelled from the spec: the last-recognized result marker of a line,
where recognition tests the markers in the fixed order
`[0.0]`, `[0.5]`, `[1.0]` and the last test that matches wins. -/
def lastRecognizedMarker (line : String) : Option (List Char) :=
  if containsSub mark10 line.data then some mark10
  else if containsSub mark05 line.data then some mark05
  else if containsSub mark00 line.data then some mark00
  else none

/-- Modelled from the spec: the integer parsed from the text immediately
following the (first occurrence of the) last-recognized result marker. -/
def evalAfterLastMarker (line : String) : Option Int :=
  (lastRecognizedMarker line).bind (fun m => (afterSub m line.data).map atoi)

/-- What the code computes for the eval field: the integer parsed from
the text immediately following the first occurrence of the two-character
substring that closes a marker annotation, truncated to a 16-bit signed
value. -/
def evalAfterFirstTail (line : String) : Option Int :=
  (afterSub (']' :: ' ' :: []) line.data).map (fun cs => toInt16 (atoi cs))

/-- How many of the three result markers occur in the line. -/
def markerCount (line : String) : Nat :=
  (cond (containsSub mark00 line.data) 1 0) +
  (cond (containsSub mark05 line.data) 1 0) +
  (cond (containsSub mark10 line.data) 1 0)

/-! ## Concrete sample inputs used by witnesses and counterexamples -/

/-- A three-piece board: white king on square 4, white pawn on square 8,
black king on square 60 (piece-type index 5 = king, 0 = pawn). -/
def bSample : Board where
  white := 2 ^ 4 + 2 ^ 8
  black := 2 ^ 60
  kings := 2 ^ 4 + 2 ^ 60
  squares := fun sq =>
    if sq = 4 then { colour := 0, ptype := 5 }
    else if sq = 8 then { colour := 0, ptype := 0 }
    else if sq = 60 then { colour := 1, ptype := 5 }
    else { colour := 0, ptype := 0 }
  turn := 0
  kingAttackers := 0

/-- A nine-piece board that is not in check. -/
def bBig : Board where
  white := 255
  black := 2 ^ 60
  kings := 2 ^ 7 + 2 ^ 60
  squares := fun _ => { colour := 0, ptype := 0 }
  turn := 0
  kingAttackers := 0

/-- A board whose side to move is in check. -/
def bChecked : Board where
  white := 2 ^ 4
  black := 2 ^ 60
  kings := 2 ^ 4 + 2 ^ 60
  squares := fun _ => { colour := 0, ptype := 0 }
  turn := 0
  kingAttackers := 2 ^ 30

/-- A sample annotated line with a single (draw) marker. -/
def sampleLine : String := "pos [0.5] -23\n"

/-- A line containing two result markers, each followed by an integer. -/
def twoMarkerLine : String := "x [0.0] 5 [1.0] 7\n"

/-- Another line with two markers, for the multi-marker witness. -/
def twoMarkerLine2 : String := "y [0.0] 8 [1.0] 9\n"

/-- A single-marker (win) line. -/
def winLine : String := "p [1.0] 44\n"

/-- The record `buildNNBook` writes for `bSample` and `sampleLine`. -/
def sampleRec : TrainingRecord where
  occupancy := 1152921504606847248
  eval := -23
  result := 1
  turn := 0
  wksq := 4
  bksq := 60
  count := 3
  body := [80, 208]

/-- A sample parse function: one line maps to the nine-piece quiet
board, any other to the checked board. -/
def parseSample : String → Board := fun l => if l = "keep" then bBig else bChecked

/-- A constant evaluation function standing in for the external
evaluator and quiescence search. -/
def evalZero : Board → Int := fun _ => 0

/-! ## Fuel elimination for the bit primitives -/

theorem popcountAux_zero (fuel : Nat) : popcountAux fuel 0 = 0 := by
  cases fuel <;> simp [popcountAux]

theorem popcountAux_congr : ∀ f1 f2 n, n ≤ f1 → n ≤ f2 → popcountAux f1 n = popcountAux f2 n := by
  intro f1
  induction f1 with
  | zero =>
    intro f2 n h1 _
    obtain rfl : n = 0 := Nat.le_zero.mp h1
    rw [popcountAux_zero, popcountAux_zero]
  | succ f ih =>
    intro f2 n h1 h2
    match n, f2 with
    | 0, f2 => rw [popcountAux_zero, popcountAux_zero]
    | n + 1, 0 => omega
    | n + 1, f2 + 1 =>
      simp only [popcountAux, Nat.succ_ne_zero, if_false]
      have := ih f2 ((n + 1) / 2) (by omega) (by omega)
      omega

theorem popcount_rec (n : Nat) : popcount n = n % 2 + popcount (n / 2) := by
  match n with
  | 0 => simp [popcount, popcountAux]
  | n + 1 =>
    show popcountAux (n + 1) (n + 1) = (n + 1) % 2 + popcountAux ((n + 1) / 2) ((n + 1) / 2)
    simp only [popcountAux, Nat.succ_ne_zero, if_false]
    have := popcountAux_congr n ((n + 1) / 2) ((n + 1) / 2) (by omega) (le_refl _)
    omega

theorem ctzAux_zero (fuel : Nat) : ctzAux fuel 0 = 0 := by
  cases fuel <;> simp [ctzAux]

theorem ctzAux_congr : ∀ f1 f2 n, n ≤ f1 → n ≤ f2 → ctzAux f1 n = ctzAux f2 n := by
  intro f1
  induction f1 with
  | zero =>
    intro f2 n h1 _
    obtain rfl : n = 0 := Nat.le_zero.mp h1
    rw [ctzAux_zero, ctzAux_zero]
  | succ f ih =>
    intro f2 n h1 h2
    match n, f2 with
    | 0, f2 => rw [ctzAux_zero, ctzAux_zero]
    | n + 1, 0 => omega
    | n + 1, f2 + 1 =>
      simp only [ctzAux, Nat.succ_ne_zero, if_false]
      have := ih f2 ((n + 1) / 2) (by omega) (by omega)
      split <;> omega

theorem ctz_rec (n : Nat) (h : n ≠ 0) :
    ctz n = if n % 2 = 1 then 0 else ctz (n / 2) + 1 := by
  match n with
  | n + 1 =>
    show ctzAux (n + 1) (n + 1) =
      if (n + 1) % 2 = 1 then 0 else ctzAux ((n + 1) / 2) ((n + 1) / 2) + 1
    simp only [ctzAux, Nat.succ_ne_zero, if_false]
    have := ctzAux_congr n ((n + 1) / 2) ((n + 1) / 2) (by omega) (le_refl _)
    split <;> omega

theorem lsbSquaresAux_zero (fuel : Nat) : lsbSquaresAux fuel 0 = [] := by
  cases fuel <;> simp [lsbSquaresAux]

theorem lsbSquaresAux_congr :
    ∀ f1 f2 bb, bb ≤ f1 → bb ≤ f2 → lsbSquaresAux f1 bb = lsbSquaresAux f2 bb := by
  intro f1
  induction f1 with
  | zero =>
    intro f2 bb h1 _
    obtain rfl : bb = 0 := Nat.le_zero.mp h1
    rw [lsbSquaresAux_zero, lsbSquaresAux_zero]
  | succ f ih =>
    intro f2 bb h1 h2
    match bb, f2 with
    | 0, f2 => rw [lsbSquaresAux_zero, lsbSquaresAux_zero]
    | bb + 1, 0 => omega
    | bb + 1, f2 + 1 =>
      simp only [lsbSquaresAux, Nat.succ_ne_zero, if_false, Nat.add_sub_cancel]
      have hle : (bb + 1) &&& bb ≤ bb := Nat.and_le_right
      rw [ih f2 ((bb + 1) &&& bb) (by omega) (by omega)]

theorem lsbSquares_rec (bb : Nat) (h : bb ≠ 0) :
    lsbSquares bb = ctz bb :: lsbSquares (bb &&& (bb - 1)) := by
  match bb with
  | bb + 1 =>
    show lsbSquaresAux (bb + 1) (bb + 1) =
      ctz (bb + 1) :: lsbSquaresAux ((bb + 1) &&& (bb + 1 - 1)) ((bb + 1) &&& (bb + 1 - 1))
    simp only [lsbSquaresAux, Nat.succ_ne_zero, if_false, Nat.add_sub_cancel]
    have hle : (bb + 1) &&& bb ≤ bb := Nat.and_le_right
    rw [lsbSquaresAux_congr bb ((bb + 1) &&& bb) ((bb + 1) &&& bb) (by omega) (le_refl _)]

/-! ## Facts about clearing the least significant bit -/

theorem land_pred_odd (n : Nat) (h : n % 2 = 1) : n &&& (n - 1) = n - 1 := by
  apply Nat.eq_of_testBit_eq
  intro i
  rw [Nat.testBit_and]
  cases i with
  | zero =>
    rw [Nat.testBit_zero, Nat.testBit_zero]
    have h0 : ¬((n - 1) % 2 = 1) := by omega
    simp [h0]
  | succ j =>
    rw [Nat.testBit_succ, Nat.testBit_succ]
    rw [show (n - 1) / 2 = n / 2 from by omega]
    exact Bool.and_self _

theorem land_pred_even (n : Nat) (h0 : n % 2 = 0) (_hn : n ≠ 0) :
    n &&& (n - 1) = 2 * ((n / 2) &&& (n / 2 - 1)) := by
  apply Nat.eq_of_testBit_eq
  intro i
  rw [Nat.testBit_and]
  cases i with
  | zero =>
    rw [Nat.testBit_zero, Nat.testBit_zero, Nat.testBit_zero]
    have h1 : ¬(n % 2 = 1) := by omega
    have h2 : ¬((2 * ((n / 2) &&& (n / 2 - 1))) % 2 = 1) := by omega
    simp [h1, h2]
  | succ j =>
    rw [Nat.testBit_succ, Nat.testBit_succ, Nat.testBit_succ]
    rw [show (n - 1) / 2 = n / 2 - 1 from by omega]
    rw [show 2 * ((n / 2) &&& (n / 2 - 1)) / 2 = (n / 2) &&& (n / 2 - 1) from by omega]
    rw [Nat.testBit_and]

theorem popcount_land_pred (n : Nat) (hn : n ≠ 0) :
    popcount (n &&& (n - 1)) + 1 = popcount n := by
  induction n using Nat.strong_induction_on with
  | _ n ih =>
    rcases Nat.even_or_odd n with he | ho
    · have h0 : n % 2 = 0 := Nat.even_iff.mp he
      rw [land_pred_even n h0 hn]
      have hrec2 : popcount (2 * ((n / 2) &&& (n / 2 - 1))) = popcount ((n / 2) &&& (n / 2 - 1)) := by
        rw [popcount_rec (2 * ((n / 2) &&& (n / 2 - 1)))]
        rw [show 2 * ((n / 2) &&& (n / 2 - 1)) / 2 = (n / 2) &&& (n / 2 - 1) from by omega]
        omega
      have hhalf : popcount ((n / 2) &&& (n / 2 - 1)) + 1 = popcount (n / 2) :=
        ih (n / 2) (by omega) (by omega)
      rw [popcount_rec n]
      omega
    · have h1 : n % 2 = 1 := Nat.odd_iff.mp ho
      rw [land_pred_odd n h1]
      rw [popcount_rec n, popcount_rec (n - 1)]
      rw [show (n - 1) / 2 = n / 2 from by omega]
      omega

theorem lsbSquares_length (bb : Nat) : (lsbSquares bb).length = popcount bb := by
  induction bb using Nat.strong_induction_on with
  | _ bb ih =>
    rcases Nat.eq_zero_or_pos bb with rfl | hpos
    · rfl
    · have hne : bb ≠ 0 := by omega
      rw [lsbSquares_rec bb hne]
      have hlt : bb &&& (bb - 1) < bb := by
        have : bb &&& (bb - 1) ≤ bb - 1 := Nat.and_le_right
        omega
      have := ih (bb &&& (bb - 1)) hlt
      have := popcount_land_pred bb hne
      simp only [List.length_cons]
      omega

theorem popcount_le_of_lt (k : Nat) : ∀ n, n < 2 ^ k → popcount n ≤ k := by
  induction k with
  | zero =>
    intro n h
    obtain rfl : n = 0 := by omega
    simp [popcount, popcountAux]
  | succ k ih =>
    intro n h
    rw [popcount_rec n]
    have h2 : n / 2 < 2 ^ k := by
      have hpow : 2 ^ (k + 1) = 2 * 2 ^ k := by ring
      omega
    have := ih (n / 2) h2
    omega

/-! ## Correctness of the least-significant-bit index -/

theorem ctz_testBit (n : Nat) (hn : n ≠ 0) : n.testBit (ctz n) = true := by
  induction n using Nat.strong_induction_on with
  | _ n ih =>
    rw [ctz_rec n hn]
    rcases Nat.even_or_odd n with he | ho
    · have h0 : n % 2 = 0 := Nat.even_iff.mp he
      rw [if_neg (by omega)]
      rw [Nat.testBit_succ]
      exact ih (n / 2) (by omega) (by omega)
    · have h1 : n % 2 = 1 := Nat.odd_iff.mp ho
      rw [if_pos h1, Nat.testBit_zero]
      simp [h1]

theorem testBit_lt_ctz (n : Nat) (hn : n ≠ 0) : ∀ i, i < ctz n → n.testBit i = false := by
  induction n using Nat.strong_induction_on with
  | _ n ih =>
    intro i hi
    rw [ctz_rec n hn] at hi
    rcases Nat.even_or_odd n with he | ho
    · have h0 : n % 2 = 0 := Nat.even_iff.mp he
      rw [if_neg (by omega)] at hi
      cases i with
      | zero =>
        rw [Nat.testBit_zero]
        simp [h0]
      | succ j =>
        rw [Nat.testBit_succ]
        exact ih (n / 2) (by omega) (by omega) j (by omega)
    · have h1 : n % 2 = 1 := Nat.odd_iff.mp ho
      rw [if_pos h1] at hi
      omega

theorem testBit_land_pred (n : Nat) (hn : n ≠ 0) :
    ∀ i, (n &&& (n - 1)).testBit i = (n.testBit i && decide (i ≠ ctz n)) := by
  induction n using Nat.strong_induction_on with
  | _ n ih =>
    intro i
    rcases Nat.even_or_odd n with he | ho
    · have h0 : n % 2 = 0 := Nat.even_iff.mp he
      have hctz : ctz n = ctz (n / 2) + 1 := by rw [ctz_rec n hn, if_neg (by omega)]
      rw [land_pred_even n h0 hn, hctz]
      cases i with
      | zero =>
        rw [Nat.testBit_zero, Nat.testBit_zero]
        have h2 : ¬((2 * ((n / 2) &&& (n / 2 - 1))) % 2 = 1) := by omega
        have h3 : ¬(n % 2 = 1) := by omega
        simp [h2, h3]
      | succ j =>
        rw [Nat.testBit_succ, Nat.testBit_succ]
        rw [show 2 * ((n / 2) &&& (n / 2 - 1)) / 2 = (n / 2) &&& (n / 2 - 1) from by omega]
        rw [ih (n / 2) (by omega) (by omega) j]
        have : (j + 1 ≠ ctz (n / 2) + 1) ↔ (j ≠ ctz (n / 2)) := by omega
        simp [this]
    · have h1 : n % 2 = 1 := Nat.odd_iff.mp ho
      have hctz : ctz n = 0 := by rw [ctz_rec n hn, if_pos h1]
      rw [land_pred_odd n h1, hctz]
      cases i with
      | zero =>
        rw [Nat.testBit_zero]
        have h2 : ¬((n - 1) % 2 = 1) := by omega
        simp [h2]
      | succ j =>
        rw [Nat.testBit_succ, Nat.testBit_succ]
        rw [show (n - 1) / 2 = n / 2 from by omega]
        simp

theorem mem_lsbSquares (bb : Nat) : ∀ sq, sq ∈ lsbSquares bb ↔ bb.testBit sq = true := by
  induction bb using Nat.strong_induction_on with
  | _ bb ih =>
    intro sq
    rcases Nat.eq_zero_or_pos bb with rfl | hpos
    · simp [lsbSquares, lsbSquaresAux, Nat.zero_testBit]
    · have hne : bb ≠ 0 := by omega
      have hlt : bb &&& (bb - 1) < bb := by
        have : bb &&& (bb - 1) ≤ bb - 1 := Nat.and_le_right
        omega
      rw [lsbSquares_rec bb hne, List.mem_cons, ih (bb &&& (bb - 1)) hlt sq,
        testBit_land_pred bb hne sq]
      constructor
      · rintro (rfl | hmem)
        · exact ctz_testBit bb hne
        · exact (Bool.and_eq_true _ _).mp hmem |>.1
      · intro htb
        by_cases hsq : sq = ctz bb
        · exact Or.inl hsq
        · exact Or.inr (by simp [htb, hsq])

theorem sorted_lsbSquares (bb : Nat) : List.Sorted (· < ·) (lsbSquares bb) := by
  induction bb using Nat.strong_induction_on with
  | _ bb ih =>
    rcases Nat.eq_zero_or_pos bb with rfl | hpos
    · simp [lsbSquares, lsbSquaresAux]
    · have hne : bb ≠ 0 := by omega
      have hlt : bb &&& (bb - 1) < bb := by
        have : bb &&& (bb - 1) ≤ bb - 1 := Nat.and_le_right
        omega
      rw [lsbSquares_rec bb hne]
      rw [List.sorted_cons]
      refine ⟨?_, ih (bb &&& (bb - 1)) hlt⟩
      intro x hx
      have htb := (mem_lsbSquares (bb &&& (bb - 1)) x).mp hx
      rw [testBit_land_pred bb hne x] at htb
      obtain ⟨hbx, hnex⟩ := (Bool.and_eq_true _ _).mp htb
      have hxne : x ≠ ctz bb := of_decide_eq_true hnex
      rcases Nat.lt_trichotomy x (ctz bb) with hl | he | hg
      · have := testBit_lt_ctz bb hne x hl
        rw [this] at hbx
        exact absurd hbx (by simp)
      · exact absurd he hxne
      · exact hg

/-! ## Packing bytes -/

theorem packPieces_eq (a b : Nat) (ha : a < 16) (hb : b < 16) : packPieces a b = 16 * a + b := by
  have h : ∀ a' < 16, ∀ b' < 16, packPieces a' b' = 16 * a' + b' := by decide
  exact h a ha b hb

theorem pieceCodes_lt16 (b : Board)
    (hwf : ∀ sq ∈ lsbSquares (b.white ||| b.black),
      (b.squares sq).colour < 2 ∧ (b.squares sq).ptype < 6) :
    ∀ j, (pieceCodes b).getD j 0 < 16 := by
  have hall : ∀ x ∈ pieceCodes b, x < 16 := by
    intro x hx
    unfold pieceCodes at hx
    rw [List.mem_map] at hx
    obtain ⟨sq, hsq, rfl⟩ := hx
    have := hwf sq hsq
    unfold encodePiece
    omega
  intro j
  by_cases hj : j < (pieceCodes b).length
  · rw [List.getD_eq_getElem _ _ hj]
    exact hall _ (List.getElem_mem hj)
  · rw [List.getD_eq_default _ _ (by omega)]
    omega

theorem pieceCodes_length (b : Board) :
    (pieceCodes b).length = popcount (b.white ||| b.black) := by
  unfold pieceCodes
  rw [List.length_map, lsbSquares_length]

/-! ## Characterization of one buildNNBook record -/

theorem buildRecord_eq {b : Board} {line : String} {result0 : Nat} {r : TrainingRecord}
    (h : buildRecord b line result0 = some r) :
    ∃ idx, findSub (']' :: ' ' :: []) line.data = some idx ∧
      r = { occupancy := b.white ||| b.black,
            eval := toInt16 (atoi (line.data.drop (idx + 2))),
            result := if containsSub mark10 line.data then 2
                      else if containsSub mark05 line.data then 1
                      else if containsSub mark00 line.data then 0 else result0,
            turn := b.turn,
            wksq := getlsb (b.white &&& b.kings),
            bksq := getlsb (b.black &&& b.kings),
            count := popcount (b.white ||| b.black) % 256,
            body := ((List.range 16).map (fun i =>
                packPieces ((pieceCodes b).getD (2 * i) 0) ((pieceCodes b).getD (2 * i + 1) 0))).take
              ((popcount (b.white ||| b.black) % 256 + 1) / 2) } := by
  unfold buildRecord at h
  split at h
  · exact absurd h (by simp)
  · next idx heq =>
    refine ⟨idx, heq, ?_⟩
    simp only [Option.some.injEq] at h
    exact h.symm

/-! ## Claim C1 -/

/-- C1: for every TrainingRecord emitted by `buildNNBook`, the
`pieceCount` byte equals the number of set bits in the 8-byte occupancy
field written in the same record, and the occupancy written is the
union of both colours' bitboards (captured before any bits are
removed). -/
theorem buildNNBook_pieceCount_popcount {b : Board} {line : String} {result0 : Nat}
    {r : TrainingRecord} (h : buildRecord b line result0 = some r)
    (hw : b.white < 2 ^ 64) (hb : b.black < 2 ^ 64) :
    r.occupancy = b.white ||| b.black ∧ r.count = popcount r.occupancy := by
  obtain ⟨idx, hf, hr⟩ := buildRecord_eq h
  have hocc : r.occupancy = b.white ||| b.black := by rw [hr]
  have hcount : r.count = popcount (b.white ||| b.black) % 256 := by rw [hr]
  have hlt : b.white ||| b.black < 2 ^ 64 := Nat.or_lt_two_pow hw hb
  have hle := popcount_le_of_lt 64 _ hlt
  refine ⟨hocc, ?_⟩
  rw [hocc, hcount]
  omega

/-- Witness for C1 at a concrete three-piece board and line. -/
theorem buildNNBook_pieceCount_popcount_witness :
    buildRecord bSample sampleLine 0 = some sampleRec ∧
    bSample.white < 2 ^ 64 ∧ bSample.black < 2 ^ 64 ∧
    sampleRec.occupancy = bSample.white ||| bSample.black ∧
    sampleRec.count = popcount sampleRec.occupancy :=
  ⟨by decide, by decide, by decide,
   @buildNNBook_pieceCount_popcount bSample sampleLine 0 sampleRec (by decide) (by decide)
     (by decide)⟩

/-! ## Claim C2 -/

/-- C2: for every TrainingRecord emitted by `buildNNBook`, the body
written after the fixed header is exactly `ceil(pieceCount/2)` bytes;
byte `i` packs the 4-bit codes of the `2*i`-th and `(2*i+1)`-th
occupied squares in ascending square order (the order obtained by
repeated least-significant-bit removal from the occupancy), high nibble
first, each code being `8 * colour + pieceTypeIndex`; when `pieceCount`
is odd the final low nibble is 0.  The hypotheses are the well-formed
chess position bounds: piece colours in `{0, 1}`, piece-type indices in
`0..5`, and at most 32 pieces. -/
theorem buildNNBook_packedTypes {b : Board} {line : String} {result0 : Nat}
    {r : TrainingRecord} (h : buildRecord b line result0 = some r)
    (hwf : ∀ sq ∈ lsbSquares (b.white ||| b.black),
      (b.squares sq).colour < 2 ∧ (b.squares sq).ptype < 6)
    (hc : popcount (b.white ||| b.black) ≤ 32) :
    r.body.length = (r.count + 1) / 2 ∧
    (∀ i, i < r.body.length →
      r.body.getD i 0 = 16 * (pieceCodes b).getD (2 * i) 0 + (pieceCodes b).getD (2 * i + 1) 0) ∧
    (r.count % 2 = 1 → r.body.getD (r.body.length - 1) 0 % 16 = 0) ∧
    (pieceCodes b).length = r.count ∧
    List.Sorted (· < ·) (lsbSquares r.occupancy) ∧
    (∀ sq, sq ∈ lsbSquares r.occupancy ↔ r.occupancy.testBit sq = true) := by
  obtain ⟨idx, hf, hr⟩ := buildRecord_eq h
  have hocc : r.occupancy = b.white ||| b.black := by rw [hr]
  have hcount : r.count = popcount (b.white ||| b.black) % 256 := by rw [hr]
  have hbody : r.body = ((List.range 16).map (fun i =>
      packPieces ((pieceCodes b).getD (2 * i) 0) ((pieceCodes b).getD (2 * i + 1) 0))).take
      ((popcount (b.white ||| b.black) % 256 + 1) / 2) := by rw [hr]
  have hmod : popcount (b.white ||| b.black) % 256 = popcount (b.white ||| b.black) :=
    Nat.mod_eq_of_lt (by omega)
  have hcount' : r.count = popcount (b.white ||| b.black) := by rw [hcount, hmod]
  have hlen : r.body.length = (r.count + 1) / 2 := by
    rw [hbody, List.length_take, List.length_map, List.length_range, hcount]
    omega
  have hbyte : ∀ i, i < r.body.length →
      r.body.getD i 0 = 16 * (pieceCodes b).getD (2 * i) 0 + (pieceCodes b).getD (2 * i + 1) 0 := by
    intro i hi
    have hi16 : i < 16 := by rw [hlen, hcount'] at hi; omega
    rw [List.getD_eq_getElem _ _ hi, List.getElem_of_eq hbody]
    simp only [List.getElem_take, List.getElem_map, List.getElem_range]
    exact packPieces_eq _ _ (pieceCodes_lt16 b hwf (2 * i)) (pieceCodes_lt16 b hwf (2 * i + 1))
  refine ⟨hlen, hbyte, ?_, ?_, ?_, ?_⟩
  · intro hodd
    have hpos : 0 < r.body.length := by rw [hlen]; omega
    have := hbyte (r.body.length - 1) (by omega)
    rw [this]
    have hcodes : (pieceCodes b).length = r.count := by rw [pieceCodes_length, hcount']
    have hidx : 2 * (r.body.length - 1) + 1 = r.count := by rw [hlen] at hpos ⊢; omega
    have hzero : (pieceCodes b).getD (2 * (r.body.length - 1) + 1) 0 = 0 := by
      apply List.getD_eq_default
      omega
    rw [hzero]
    omega
  · rw [pieceCodes_length, hcount']
  · rw [hocc]; exact sorted_lsbSquares _
  · rw [hocc]; intro sq; exact mem_lsbSquares _ sq

/-- Witness for C2: the three-piece sample position yields a two-byte
body whose final low nibble is 0. -/
theorem buildNNBook_packedTypes_witness :
    buildRecord bSample sampleLine 0 = some sampleRec ∧
    popcount (bSample.white ||| bSample.black) ≤ 32 ∧
    sampleRec.body.length = (sampleRec.count + 1) / 2 ∧
    (sampleRec.count % 2 = 1 →
      sampleRec.body.getD (sampleRec.body.length - 1) 0 % 16 = 0) :=
  ⟨by decide, by decide,
   (@buildNNBook_packedTypes bSample sampleLine 0 sampleRec (by decide) (by decide)
     (by decide)).1,
   (@buildNNBook_packedTypes bSample sampleLine 0 sampleRec (by decide) (by decide)
     (by decide)).2.2.1⟩

/-! ## Claim C4 -/

/-- C4 counterexample: on a line containing two markers, the eval field
comes from the integer after the first occurrence of the closing
substring of a marker annotation (here 5, following the loss marker),
not from the integer after the last-recognized marker (here 7,
following the win marker, which determines the result byte). -/
theorem buildNNBook_eval_counterexample :
    (buildRecord bSample twoMarkerLine 0).map TrainingRecord.eval = some 5 ∧
    evalAfterLastMarker twoMarkerLine = some 7 ∧
    (buildRecord bSample twoMarkerLine 0).map TrainingRecord.eval ≠
      evalAfterLastMarker twoMarkerLine := by
  refine ⟨by decide, by decide, by decide⟩

/-- C4 amended: for every annotated line processed by `buildNNBook`,
the 2-byte signed eval field written equals the 16-bit truncation of
the integer parsed from the text immediately following the first
occurrence of the two-character marker-closing substring in the line. -/
theorem buildNNBook_eval_firstTail (b : Board) (line : String) (result0 : Nat)
    (h : (buildRecord b line result0).isSome = true) :
    (buildRecord b line result0).map TrainingRecord.eval = evalAfterFirstTail line := by
  cases hr : buildRecord b line result0 with
  | none => rw [hr] at h; simp at h
  | some r =>
    obtain ⟨idx, hf, hrec⟩ := buildRecord_eq hr
    have heval : r.eval = toInt16 (atoi (line.data.drop (idx + 2))) := by rw [hrec]
    unfold evalAfterFirstTail afterSub
    rw [hf]
    simp [heval]

/-- Witness for the amended C4 on a single-marker line. -/
theorem buildNNBook_eval_firstTail_witness :
    (buildRecord bSample winLine 0).isSome = true ∧
    (buildRecord bSample winLine 0).map TrainingRecord.eval = evalAfterFirstTail winLine :=
  ⟨by decide, buildNNBook_eval_firstTail bSample winLine 0 (by decide)⟩

/-! ## Claim C5 -/

/-- C5: for every annotated line (a line carrying exactly one of the
three result markers, per the spec's data model), the result byte is 0
for the loss marker, 1 for the draw marker, 2 for the win marker, and
is always one of 0, 1, 2. -/
theorem buildNNBook_result_byte (b : Board) (line : String) (result0 : Nat)
    (h : (buildRecord b line result0).isSome = true) (hone : markerCount line = 1) :
    (containsSub mark00 line.data = true →
      (buildRecord b line result0).map TrainingRecord.result = some 0) ∧
    (containsSub mark05 line.data = true →
      (buildRecord b line result0).map TrainingRecord.result = some 1) ∧
    (containsSub mark10 line.data = true →
      (buildRecord b line result0).map TrainingRecord.result = some 2) ∧
    ((buildRecord b line result0).map TrainingRecord.result = some 0 ∨
     (buildRecord b line result0).map TrainingRecord.result = some 1 ∨
     (buildRecord b line result0).map TrainingRecord.result = some 2) := by
  cases hr : buildRecord b line result0 with
  | none => rw [hr] at h; simp at h
  | some r =>
    obtain ⟨idx, hf, hrec⟩ := buildRecord_eq hr
    have hres : r.result = (if containsSub mark10 line.data then 2
        else if containsSub mark05 line.data then 1
        else if containsSub mark00 line.data then 0 else result0) := by rw [hrec]
    unfold markerCount at hone
    cases h00 : containsSub mark00 line.data <;>
      cases h05 : containsSub mark05 line.data <;>
        cases h10 : containsSub mark10 line.data <;>
          rw [h00, h05, h10] at hone hres <;>
          first
            | exact absurd hone (by decide)
            | simp [hr, hres, h00, h05, h10]

/-- Witness for C5 on the single draw-marker sample line. -/
theorem buildNNBook_result_byte_witness :
    (buildRecord bSample sampleLine 0).isSome = true ∧ markerCount sampleLine = 1 ∧
    (buildRecord bSample sampleLine 0).map TrainingRecord.result = some 1 :=
  ⟨by decide, by decide,
    (buildNNBook_result_byte bSample sampleLine 0 (by decide) (by decide)).2.1 (by decide)⟩

/-! ## Claim C9 -/

/-- C9: when a line contains more than one of the three markers, the
last marker in the fixed test order `[0.0]`, `[0.5]`, `[1.0]` that
occurs anywhere in the line determines the result byte, regardless of
the markers' textual positions; in particular a line containing both
the loss and the win marker always yields result 2. -/
theorem buildNNBook_result_lastMarkerWins (b : Board) (line : String) (result0 : Nat)
    (h : (buildRecord b line result0).isSome = true) (hmulti : 2 ≤ markerCount line) :
    (buildRecord b line result0).map TrainingRecord.result =
      some (if containsSub mark10 line.data then 2
            else if containsSub mark05 line.data then 1 else 0) ∧
    (containsSub mark00 line.data = true → containsSub mark10 line.data = true →
      (buildRecord b line result0).map TrainingRecord.result = some 2) := by
  cases hr : buildRecord b line result0 with
  | none => rw [hr] at h; simp at h
  | some r =>
    obtain ⟨idx, hf, hrec⟩ := buildRecord_eq hr
    have hres : r.result = (if containsSub mark10 line.data then 2
        else if containsSub mark05 line.data then 1
        else if containsSub mark00 line.data then 0 else result0) := by rw [hrec]
    unfold markerCount at hmulti
    cases h00 : containsSub mark00 line.data <;>
      cases h05 : containsSub mark05 line.data <;>
        cases h10 : containsSub mark10 line.data <;>
          rw [h00, h05, h10] at hmulti hres <;>
          first
            | exact absurd hmulti (by decide)
            | simp [hr, hres, h00, h05, h10]

/-- Witness for C9 on a line containing both the loss and win markers. -/
theorem buildNNBook_result_lastMarkerWins_witness :
    (buildRecord bSample twoMarkerLine2 0).isSome = true ∧ 2 ≤ markerCount twoMarkerLine2 ∧
    (buildRecord bSample twoMarkerLine2 0).map TrainingRecord.result = some 2 :=
  ⟨by decide, by decide,
    (buildNNBook_result_lastMarkerWins bSample twoMarkerLine2 0 (by decide) (by decide)).2
      (by decide) (by decide)⟩

/-! ## Claim C3 -/

theorem keepLine_true_iff (evalFn qsFn : Board → Int) (b : Board) :
    keepLine evalFn qsFn b = true ↔
      (b.kingAttackers = 0 ∧ 6 < popcount (b.white ||| b.black) ∧ evalFn b = qsFn b) := by
  unfold keepLine
  split
  · next h1 =>
    simp only [Bool.false_eq_true, false_iff]
    rintro ⟨c1, -, -⟩
    exact h1 c1
  · next h1 =>
    split
    · next h2 =>
      simp only [Bool.false_eq_true, false_iff]
      rintro ⟨-, c2, -⟩
      omega
    · next h2 =>
      split
      · next h3 =>
        simp only [Bool.false_eq_true, false_iff]
        rintro ⟨-, -, c3⟩
        exact h3 c3
      · next h3 =>
        simp only [true_iff]
        exact ⟨not_not.mp h1, by omega, not_not.mp h3⟩

/-- C3: `filterBook` writes a line to output — verbatim, in original
input order, as `List.filter` — exactly when the parsed position is not
in check, has piece count above 6, and its static evaluation equals the
zero-depth quiescence value; moreover a position in check or with at
most six pieces is rejected for every possible evaluation and
quiescence function (those are never consulted: the predicates
short-circuit in the order of the code). -/
theorem filterBook_emits_iff (parse : String → Board) (evalFn qsFn : Board → Int)
    (lines : List String) :
    filterBook parse evalFn qsFn lines = lines.filter (fun l =>
      decide ((parse l).kingAttackers = 0 ∧
        6 < popcount ((parse l).white ||| (parse l).black) ∧
        evalFn (parse l) = qsFn (parse l))) ∧
    (∀ (evalFn' qsFn' : Board → Int) (bd : Board),
      (bd.kingAttackers ≠ 0 ∨ popcount (bd.white ||| bd.black) ≤ 6) →
      keepLine evalFn' qsFn' bd = false) := by
  constructor
  · unfold filterBook
    apply List.filter_congr
    intro l _
    rw [Bool.eq_iff_iff, decide_eq_true_iff]
    exact keepLine_true_iff evalFn qsFn (parse l)
  · intro evalFn' qsFn' bd hbd
    unfold keepLine
    rcases hbd with hchk | hcnt
    · rw [if_pos hchk]
    · by_cases hchk : bd.kingAttackers ≠ 0
      · rw [if_pos hchk]
      · rw [if_neg hchk, if_pos hcnt]

/-- Witness for C3: a checked board is rejected whatever the evaluation
functions, and a two-line book keeps exactly the quiet big-board line. -/
theorem filterBook_emits_iff_witness :
    keepLine evalZero evalZero bChecked = false ∧
    filterBook parseSample evalZero evalZero ["keep", "chk"] = ["keep"] :=
  ⟨(filterBook_emits_iff parseSample evalZero evalZero []).2 evalZero evalZero bChecked
      (Or.inl (by decide)),
   by decide⟩

/-! ## Claim C6 -/

theorem benchSearchLoop_countInit (s : List String) :
    (benchSearchLoop s).countP isInit = 0 := by
  induction s with
  | nil => rfl
  | cons fen rest ih =>
    unfold benchSearchLoop
    split
    · rfl
    · simp [List.countP_cons, isInit, ih]

theorem evalBookLoop_countInit (s : List String) :
    (evalBookLoop s).countP isInit = 0 := by
  induction s with
  | nil => rfl
  | cons l rest ih =>
    simp [evalBookLoop, List.countP_cons, isInit, ih]

theorem benchSearchLoop_afterEach (s : List String) (tail : List Event)
    (ht : afterEachSearch isClear tail = true) :
    afterEachSearch isClear (benchSearchLoop s ++ tail) = true := by
  induction s with
  | nil => simpa
  | cons fen rest ih =>
    unfold benchSearchLoop
    split
    · simpa
    · simp [afterEachSearch, beforeNextSearch, isSearch, isInit, isClear, ih]

theorem evalBookLoop_afterEachClear (s : List String) :
    afterEachSearch isClear (evalBookLoop s) = true := by
  induction s with
  | nil => rfl
  | cons l rest ih =>
    simp [evalBookLoop, afterEachSearch, beforeNextSearch, isSearch, isInit, isClear, isReset, ih]

theorem evalBookLoop_afterEachReset (s : List String) :
    afterEachSearch isReset (evalBookLoop s) = true := by
  induction s with
  | nil => rfl
  | cons l rest ih =>
    simp [evalBookLoop, afterEachSearch, beforeNextSearch, isSearch, isInit, isClear, isReset, ih]

/-- C6: in both `runBenchmark` and `runEvalBook` the transposition
table is initialized exactly once per run, before the first search;
after every search a `clearTT` — and never a re-initialization — occurs
before the next search; and `runEvalBook` additionally resets the
thread pool's per-search state after every search before the next line
is processed. -/
theorem ttLifecycle (suite lines : List String) (mbB nB mbE nE : Nat) :
    (runBenchmarkTrace suite mbB nB).countP isInit = 1 ∧
    noSearchBefore isInit (runBenchmarkTrace suite mbB nB) = true ∧
    afterEachSearch isClear (runBenchmarkTrace suite mbB nB) = true ∧
    (runEvalBookTrace lines mbE nE).countP isInit = 1 ∧
    noSearchBefore isInit (runEvalBookTrace lines mbE nE) = true ∧
    afterEachSearch isClear (runEvalBookTrace lines mbE nE) = true ∧
    afterEachSearch isReset (runEvalBookTrace lines mbE nE) = true := by
  refine ⟨?_, ?_, ?_, ?_, ?_, ?_, ?_⟩
  · simp [runBenchmarkTrace, List.countP_cons, List.countP_append,
      benchSearchLoop_countInit, isInit]
  · simp [runBenchmarkTrace, noSearchBefore, isInit]
  · simp only [runBenchmarkTrace, afterEachSearch, isSearch, Bool.not_false, Bool.true_or,
      Bool.true_and]
    exact benchSearchLoop_afterEach suite [Event.freePool] (by decide)
  · simp [runEvalBookTrace, List.countP_cons, evalBookLoop_countInit, isInit]
  · simp [runEvalBookTrace, noSearchBefore, isInit, isSearch]
  · simp only [runEvalBookTrace, afterEachSearch, isSearch, Bool.not_false, Bool.true_or,
      Bool.true_and]
    exact evalBookLoop_afterEachClear lines
  · simp only [runEvalBookTrace, afterEachSearch, isSearch, Bool.not_false, Bool.true_or,
      Bool.true_and]
    exact evalBookLoop_afterEachReset lines

/-! ## Claim C7 -/

/-- C7: after the benchmark loop the aggregate figures are the sum of
the per-position node counts and `1000 * totalNodes / (elapsed + 1)`;
the `+ 1` makes the denominator non-zero for every non-negative elapsed
time, and an empty suite (sentinel only) yields 0 total nodes and an
nps of 0 with no division by zero. -/
theorem benchOverallReport (suite : List String) (nodesOf : String → Nat) (elapsed : ℚ)
    (h : 0 ≤ elapsed) :
    benchTotalNodes nodesOf suite = ((benchPositions suite).map nodesOf).sum ∧
    elapsed + 1 ≠ 0 ∧
    benchOverallNps (benchTotalNodes nodesOf suite) elapsed =
      Int.floor ((1000 * (benchTotalNodes nodesOf suite : ℚ)) / (elapsed + 1)) ∧
    (benchPositions suite = [] →
      benchTotalNodes nodesOf suite = 0 ∧
      benchOverallNps (benchTotalNodes nodesOf suite) elapsed = 0) := by
  refine ⟨?_, ?_, rfl, ?_⟩
  · rw [benchTotalNodes, List.sum_eq_foldl]
  · have hpos : (0 : ℚ) < elapsed + 1 := by linarith
    exact hpos.ne'
  · intro hempty
    have h0 : benchTotalNodes nodesOf suite = 0 := by
      rw [benchTotalNodes, hempty]
      rfl
    refine ⟨h0, ?_⟩
    rw [h0]
    unfold benchOverallNps
    norm_num

/-- Witness for C7 on the sentinel-only suite with zero elapsed time. -/
theorem benchOverallReport_witness :
    (0 : ℚ) ≤ 0 ∧ benchPositions [""] = [] ∧
    benchTotalNodes (fun _ => 0) [""] = 0 ∧
    benchOverallNps (benchTotalNodes (fun _ => 0) [""]) 0 = 0 :=
  ⟨le_refl 0, by decide,
    ((benchOverallReport [""] (fun _ => 0) 0 (le_refl 0)).2.2.2 (by decide)).1,
    ((benchOverallReport [""] (fun _ => 0) 0 (le_refl 0)).2.2.2 (by decide)).2⟩

/-! ## Claim C8 -/

/-- C8: when the command argument is absent or not one of the four
recognized commands, `handleCommandLine` invokes no pipeline, prints no
diagnostic, and falls through without an exit status. -/
theorem handleCommandLine_fallthrough (argv : List String)
    (h : argv.length ≤ 1 ∨
      argv.getD 1 "" ∉ (["bench", "filter", "nnbook", "evalbook"] : List String)) :
    handleCommandLine argv = (none, [], none) := by
  unfold handleCommandLine
  rcases h with hlen | hmem
  · have h1 : ¬ 1 < argv.length := by omega
    have h2 : ¬ 2 < argv.length := by omega
    simp [h1, h2]
  · simp only [List.mem_cons, List.not_mem_nil, or_false, not_or] at hmem
    obtain ⟨hb, hf, hn, he⟩ := hmem
    rw [if_neg (fun hc => hb hc.2), if_neg (fun hc => hf hc.2), if_neg (fun hc => hn hc.2),
      if_neg (fun hc => he hc.2)]

/-- Witness for C8 on an unrecognized command word. -/
theorem handleCommandLine_fallthrough_witness :
    ((["Ethereal", "uci"] : List String).length ≤ 1 ∨
      (["Ethereal", "uci"] : List String).getD 1 "" ∉
        (["bench", "filter", "nnbook", "evalbook"] : List String)) ∧
    handleCommandLine ["Ethereal", "uci"] = (none, [], none) :=
  ⟨Or.inr (by decide), handleCommandLine_fallthrough ["Ethereal", "uci"] (Or.inr (by decide))⟩

/-! ## Claim C10 -/

theorem benchPositions_length_lt (suite : List String) (hs : "" ∈ suite) :
    (benchPositions suite).length < suite.length := by
  induction suite with
  | nil => simp at hs
  | cons a rest ih =>
    by_cases ha : a = ""
    · subst ha
      simp [benchPositions, List.takeWhile_cons]
    · rcases List.mem_cons.mp hs with h | h
      · exact absurd h.symm ha
      · have hlt := ih h
        unfold benchPositions at hlt ⊢
        rw [List.takeWhile_cons, if_pos (by simp [ha])]
        simp only [List.length_cons]
        omega

/-- C10: with the compiled-in suite holding at most 256 positions
before the empty-string sentinel, every index used by the search loop
and the two reporting loops on the five 256-entry statistics arrays is
below 256, and every read of the `Benchmarks` array itself (including
the final sentinel test) is within the suite. -/
theorem benchArrayBounds (suite : List String)
    (h : (benchPositions suite).length ≤ 256) (hs : "" ∈ suite) :
    (∀ i ∈ benchStatAccesses suite, i < 256) ∧
    (∀ i ∈ benchSuiteAccesses suite, i < suite.length) := by
  constructor
  · intro i hi
    rw [benchStatAccesses, List.mem_range] at hi
    omega
  · intro i hi
    rw [benchSuiteAccesses, List.mem_range] at hi
    have := benchPositions_length_lt suite hs
    omega

/-- Witness for C10 on a two-entry suite. -/
theorem benchArrayBounds_witness :
    (benchPositions ["a", ""]).length ≤ 256 ∧ "" ∈ (["a", ""] : List String) ∧
    (∀ i ∈ benchStatAccesses ["a", ""], i < 256) ∧
    (∀ i ∈ benchSuiteAccesses ["a", ""], i < (["a", ""] : List String).length) :=
  ⟨by decide, by decide,
    (benchArrayBounds ["a", ""] (by decide) (by decide)).1,
    (benchArrayBounds ["a", ""] (by decide) (by decide)).2⟩
